import Mathlib

/-!
Shallow embedding of the session relay in src/worker/agent.ts and the
specification claims about it.

JavaScript strings are modelled as lists of characters (JStr), so that the
string manipulation of the source (slice, trim, split, replace, startsWith)
becomes structural recursion that the kernel can evaluate.  The side effects
of a command handler (websocket sends, SQL inserts and deletes, setState
calls) are modelled as an ordered trace of actions, so that temporal claims
(for example: the assistant row is inserted only after the done event was
sent) are statements about the order of actions in the trace.
-/

namespace CfChatAgent

/-- JavaScript string, modelled as its character sequence. -/
abbrev JStr := List Char

/-- Message role as stored in a row: the Msg type of agent.ts. -/
inductive Role where
  | user
  | assistant
  | tool
deriving DecidableEq

/-- One stored row, mirrored in state: type Msg of agent.ts. -/
structure Msg where
  role : Role
  content : JStr
  ts : Nat
deriving DecidableEq

/-- Durable object state: type State of agent.ts. -/
structure AgentState where
  model : JStr
  messages : List Msg
  createdAt : Nat
  expiresAt : Nat
deriving DecidableEq

/-- The DAY constant of agent.ts (86_400_000 milliseconds). -/
def DAY : Nat := 86400000

/-- The DEFAULT_MODEL constant of agent.ts. -/
def DEFAULT_MODEL : JStr := "@cf/meta/llama-4-scout-17b-16e-instruct".data

/-- The initialState field of the AIAgent class, at construction time now. -/
def initialState (now : Nat) : AgentState :=
  { model := DEFAULT_MODEL, messages := [], createdAt := now, expiresAt := now + DAY }

/-- Role tag of a turn passed to the inference backend (AiChatMessage role). -/
inductive AiRole where
  | system
  | user
  | assistant
deriving DecidableEq

/-- One turn passed to the inference backend: type AiChatMessage of agent.ts. -/
structure AiChatMessage where
  role : AiRole
  content : JStr
deriving DecidableEq

/-- The isUserOrAssistant helper of agent.ts. -/
def isUserOrAssistant (m : Msg) : Bool :=
  m.role == Role.user || m.role == Role.assistant

/-- Conversion of a kept row into a backend turn.  Filtering the log with
isUserOrAssistant and then projecting role and content, as onMessage does,
is exactly this filterMap: tool rows are dropped, the other two roles are
kept with their content. -/
def toAiMsg (m : Msg) : Option AiChatMessage :=
  match m.role with
  | Role.user => some { role := AiRole.user, content := m.content }
  | Role.assistant => some { role := AiRole.assistant, content := m.content }
  | Role.tool => none

/-- JS Array.prototype.slice with a negative start: messages.slice(-n)
keeps the last n elements (all of them when fewer). -/
def sliceLast (n : Nat) (l : List Msg) : List Msg :=
  l.drop (l.length - n)

/-- The fixed system instruction string of onMessage. -/
def systemPrompt : JStr :=
  "You are a helpful, concise chat agent. Keep replies short unless the user requests detail.".data

/-- Outbound wire events of the relay (the JSON objects sent over the
connection, identified by their type tag). -/
inductive Event where
  | ready
  | delta (text : JStr)
  | done
  | cleared
deriving DecidableEq

/-- One observable side effect of a handler, in execution order:
a websocket send to one connection, a SQL INSERT of a row, a setState
call, or the SQL DELETE of all rows. -/
inductive Action where
  | send (cid : Nat) (e : Event)
  | insertRow (m : Msg)
  | setSt (s : AgentState)
  | deleteRows
deriving DecidableEq

/-- JS String.prototype.trimStart. -/
def jsTrimStart (s : JStr) : JStr := s.dropWhile Char.isWhitespace

/-- JS String.prototype.trim. -/
def jsTrim (s : JStr) : JStr :=
  ((s.dropWhile Char.isWhitespace).reverse.dropWhile Char.isWhitespace).reverse

/-- The sentinel payload marking logical end of stream. -/
def DONE_SENTINEL : JStr := "[DONE]".data

/-- The recognized data-line marker. -/
def DATA_MARKER : JStr := "data:".data

/-- The placeholder text persisted after a total stream failure. -/
def STREAM_ERROR : JStr := "_(stream error)_".data

/-- The text persisted when the backend result is neither stream nor string. -/
def NO_RESPONSE : JStr := "[no response]".data

/-- The inner frame-draining loop of streamAssistant: repeatedly cut the
text before the first blank line (two consecutive newlines) out of the
buffer.  Returns every complete frame in order followed by the remaining
buffer, exactly as the left-to-right indexOf loop of the source. -/
def splitFramesGo (acc : JStr) : JStr → List JStr
  | '\n' :: '\n' :: rest => acc.reverse :: splitFramesGo [] rest
  | c :: rest => splitFramesGo (c :: acc) rest
  | [] => [acc.reverse]

/-- JS frame.split of a single newline. -/
def splitLinesGo (acc : JStr) : JStr → List JStr
  | '\n' :: rest => acc.reverse :: splitLinesGo [] rest
  | c :: rest => splitLinesGo (c :: acc) rest
  | [] => [acc.reverse]

/-- JS frame.replace of every CRLF by LF. -/
def normNewlines : JStr → JStr
  | '\r' :: '\n' :: rest => '\n' :: normNewlines rest
  | c :: rest => c :: normNewlines rest
  | [] => []

/-- Abstraction of JSON.parse applied to one data-line payload, as used at
one call site of streamAssistant: none models a parse exception; some piece
models a successful parse, piece being the response field coerced as the
source does (the empty string when the field is absent or not a string). -/
abbrev JsonParse := JStr → Option JStr

/-- Decoding of one line of a frame, following the source: lines without
the data marker contribute nothing; the payload is the rest of the line
with leading whitespace removed; empty and sentinel payloads are skipped;
a parsed fragment contributes its response text when that text is nonempty;
a payload that fails to parse contributes itself verbatim. -/
def lineIncrement (J : JsonParse) (line : JStr) : Option JStr :=
  if DATA_MARKER.isPrefixOf line then
    let payload := jsTrimStart (line.drop 5)
    if payload = [] ∨ payload = DONE_SENTINEL then none
    else
      match J payload with
      | some piece => if piece = [] then none else some piece
      | none => some payload
  else none

/-- Accumulator of the streaming loop: the undecoded buffer, the running
full text, and the delta texts emitted so far in order. -/
structure StreamAcc where
  buffer : JStr
  full : JStr
  deltas : List JStr
deriving DecidableEq

/-- Processing of one line: a decoded increment extends the full text and
is emitted as one more delta. -/
def processLine (J : JsonParse) (acc : StreamAcc) (line : JStr) : StreamAcc :=
  match lineIncrement J line with
  | none => acc
  | some piece => { acc with full := acc.full ++ piece, deltas := acc.deltas ++ [piece] }

/-- Processing of one complete frame: normalize CRLF, split into lines,
process each line in order. -/
def processFrame (J : JsonParse) (acc : StreamAcc) (frame : JStr) : StreamAcc :=
  (splitLinesGo [] (normNewlines frame)).foldl (processLine J) acc

/-- Processing of one decoded chunk: append it to the buffer, drain every
complete frame in order, keep the remainder as the new buffer. -/
def processChunk (J : JsonParse) (acc : StreamAcc) (chunk : JStr) : StreamAcc :=
  let parts := splitFramesGo [] (acc.buffer ++ chunk)
  let acc1 := parts.dropLast.foldl (processFrame J) { acc with buffer := [] }
  { acc1 with buffer := parts.getLastD [] }

/-- The whole read loop of streamAssistant over the decoded chunks of the
backend byte stream. -/
def runChunks (J : JsonParse) (chunks : List JStr) : StreamAcc :=
  chunks.foldl (processChunk J) { buffer := [], full := [], deltas := [] }

/-- The fragment texts a chunk sequence decodes to, in emission order. -/
def fragments (J : JsonParse) (chunks : List JStr) : List JStr :=
  (runChunks J chunks).deltas

/-- Behaviour of one ai.run invocation, resolved as the source observes it:
a byte stream delivering the given decoded chunks (readError true when the
next read after them throws), a plain string result, a result that is
neither stream nor string, or a throw at invocation time. -/
inductive RunOut where
  | stream (chunks : List JStr) (readError : Bool)
  | text (s : JStr)
  | other
  | raiseAtInvoke

/-- The shared append pattern of onMessage (user row) and saveAssistant
(assistant row): INSERT the row, then setState with the row appended to the
in-memory log and expiresAt refreshed. -/
def appendActs (st : AgentState) (r : Role) (content : JStr) (ts : Nat) : List Action :=
  let m : Msg := { role := r, content := content, ts := ts }
  [Action.insertRow m,
   Action.setSt { st with messages := st.messages ++ [m], expiresAt := ts + DAY }]

/-- The saveAssistant method of agent.ts. -/
def saveAssistantActs (st : AgentState) (text : JStr) (ts : Nat) : List Action :=
  appendActs st Role.assistant text ts

/-- The streamAssistant method of agent.ts, as the trace of its effects.
st is this.state when the method runs (the state already holding the user
turn); saveTs is the clock value read by saveAssistant.

Control flow mirrored from the source: a plain-string or unrecognized
result is saved inside the try block and the early return then triggers the
finally clause, so done is sent after that save; a throw at invocation time
reaches the catch with nothing accumulated, substitutes the placeholder,
sends done in the finally clause, and the save after the try runs next; a
stream is decoded frame by frame, each fragment sent as a delta, a read
error keeps what was accumulated (or substitutes the placeholder when
nothing was), and in every stream case done is sent by the finally clause
before the final save. -/
def streamAssistant (J : JsonParse) (cid : Nat) (st : AgentState) (out : RunOut)
    (saveTs : Nat) : List Action :=
  match out with
  | RunOut.text s =>
      saveAssistantActs st s saveTs ++ [Action.send cid Event.done]
  | RunOut.other =>
      saveAssistantActs st NO_RESPONSE saveTs ++ [Action.send cid Event.done]
  | RunOut.raiseAtInvoke =>
      Action.send cid Event.done :: saveAssistantActs st STREAM_ERROR saveTs
  | RunOut.stream chunks readErr =>
      let acc := runChunks J chunks
      let full := if readErr then (if acc.full = [] then STREAM_ERROR else acc.full)
                  else acc.full
      acc.deltas.map (fun t => Action.send cid (Event.delta t))
        ++ Action.send cid Event.done :: saveAssistantActs st full saveTs

/-- The turn list built by the chat branch of onMessage, from the state as
it is after the user turn was appended: one fixed system instruction, the
last forty log rows kept when their role is user or assistant, then the
user turn appended once more. -/
def mkPayload (stAfter : AgentState) (userText : JStr) : List AiChatMessage :=
  { role := AiRole.system, content := systemPrompt }
    :: (sliceLast 40 stAfter.messages).filterMap toAiMsg
    ++ [{ role := AiRole.user, content := userText }]

/-- The turn list the chat branch of onMessage passes to ai.run for a given
pre-command state, raw text and clock value: none when the trimmed text is
empty (the command is ignored before any payload is built). -/
def chatPayload (st : AgentState) (text : JStr) (now : Nat) : Option (List AiChatMessage) :=
  let userText := jsTrim text
  if userText = [] then none
  else
    let userMsg : Msg := { role := Role.user, content := userText, ts := now }
    let st1 := { st with messages := st.messages ++ [userMsg], expiresAt := now + DAY }
    some (mkPayload st1 userText)

/-- The chat branch of onMessage: ignore empty trimmed text, otherwise
append the user row, then run streamAssistant against the updated state. -/
def chatActs (J : JsonParse) (cid : Nat) (st : AgentState) (text : JStr)
    (now saveTs : Nat) (out : RunOut) : List Action :=
  let userText := jsTrim text
  if userText = [] then []
  else
    let userMsg : Msg := { role := Role.user, content := userText, ts := now }
    let st1 := { st with messages := st.messages ++ [userMsg], expiresAt := now + DAY }
    appendActs st Role.user userText now ++ streamAssistant J cid st1 out saveTs

/-- The reset branch of onMessage: DELETE all rows, replace the state with
a fresh one keeping the model, send cleared to the requesting connection. -/
def resetActs (cid : Nat) (st : AgentState) (now : Nat) : List Action :=
  [Action.deleteRows,
   Action.setSt { model := st.model, messages := [], createdAt := now, expiresAt := now + DAY },
   Action.send cid Event.cleared]

/-- Inbound websocket message as the handler observes it after the parse
attempt: a non-string frame, a string JSON.parse throws on, or a parsed
object carrying optional type, text and model fields. -/
inductive Inbound where
  | binary
  | notJson
  | parsed (ty : Option JStr) (text : Option JStr) (modelField : Option JStr)

/-- The command tag of the model command. -/
def CMD_MODEL : JStr := "model".data

/-- The command tag of the reset command. -/
def CMD_RESET : JStr := "reset".data

/-- The command tag of the chat command. -/
def CMD_CHAT : JStr := "chat".data

/-- The onMessage handler of agent.ts as the trace of its effects.  cid is
the requesting connection, st is this.state when the message arrives, now
is the clock during command dispatch, saveTs the clock at saveAssistant
time, and out the behaviour of the backend invocation (unused unless the
chat branch runs).  A non-string frame, an unparseable frame, a missing
type field, and an unrecognized type all fall through with no effect; a
model command with a falsy model field also matches no branch. -/
def onMessage (J : JsonParse) (cid : Nat) (st : AgentState) (inb : Inbound)
    (now saveTs : Nat) (out : RunOut) : List Action :=
  match inb with
  | Inbound.binary => []
  | Inbound.notJson => []
  | Inbound.parsed none _ _ => []
  | Inbound.parsed (some t) text? model? =>
      if t = CMD_MODEL then
        match model? with
        | some m =>
            if m = [] then []
            else [Action.setSt { st with model := m, expiresAt := now + DAY }]
        | none => []
      else if t = CMD_RESET then resetActs cid st now
      else if t = CMD_CHAT then chatActs J cid st (text?.getD []) now saveTs out
      else []

/-- The pair a relay instance owns: its in-memory state and the rows of its
messages table in insertion (rowid) order. -/
structure Agent where
  state : AgentState
  store : List Msg
deriving DecidableEq

/-- Interpretation of one action on the owned state and store. -/
def applyAction (ag : Agent) : Action → Agent
  | Action.send _ _ => ag
  | Action.insertRow m => { ag with store := ag.store ++ [m] }
  | Action.setSt s => { ag with state := s }
  | Action.deleteRows => { ag with store := [] }

/-- Interpretation of a trace, left to right. -/
def applyActions (ag : Agent) (tr : List Action) : Agent :=
  tr.foldl applyAction ag

/-- Row order of the select used at hydration: ascending timestamp. -/
def byTs (a b : Msg) : Prop := a.ts ≤ b.ts

instance : DecidableRel byTs := fun a b => Nat.decLe a.ts b.ts

instance : IsTrans Msg byTs := ⟨fun _ _ _ => Nat.le_trans⟩

/-- The SELECT ordered by ts ascending, modelled as a stable sort of the
insertion-ordered rows: rows are scanned in rowid order and SQLite keeps
that order among equal timestamps, the insertion order being the tiebreak. -/
def selectAllOrderedByTime (store : List Msg) : List Msg :=
  store.insertionSort byTs

/-- Events sent over any connection, in trace order. -/
def eventsOf (tr : List Action) : List Event :=
  tr.filterMap fun a =>
    match a with
    | Action.send _ e => some e
    | _ => none

/-- Events delivered to one connection, in trace order. -/
def eventsTo (cid : Nat) (tr : List Action) : List Event :=
  tr.filterMap fun a =>
    match a with
    | Action.send c e => if c = cid then some e else none
    | _ => none

/-- Contents of the assistant rows inserted by a trace, in trace order. -/
def assistantContents (tr : List Action) : List JStr :=
  tr.filterMap fun a =>
    match a with
    | Action.insertRow m => if m.role = Role.assistant then some m.content else none
    | _ => none

/-- Scan for the done-before-persist discipline: true when every assistant
row insert in the trace is preceded by some done send. -/
def persistAfterDoneGo (seenDone : Bool) : List Action → Bool
  | [] => true
  | Action.insertRow m :: rest =>
      (decide (m.role ≠ Role.assistant) || seenDone) && persistAfterDoneGo seenDone rest
  | Action.send _ Event.done :: rest => persistAfterDoneGo true rest
  | _ :: rest => persistAfterDoneGo seenDone rest

/-- True when every assistant row insert is preceded by a done send. -/
def persistAfterDone (tr : List Action) : Bool := persistAfterDoneGo false tr

/-- Scan for the converse discipline: true when every done send in the
trace is preceded by some assistant row insert. -/
def persistBeforeDoneGo (seenAsst : Bool) : List Action → Bool
  | [] => true
  | Action.send _ Event.done :: rest => seenAsst && persistBeforeDoneGo seenAsst rest
  | Action.insertRow m :: rest =>
      persistBeforeDoneGo (seenAsst || m.role == Role.assistant) rest
  | _ :: rest => persistBeforeDoneGo seenAsst rest

/-- True when every done send is preceded by an assistant row insert. -/
def persistBeforeDone (tr : List Action) : Bool := persistBeforeDoneGo false tr

/-- A JSON oracle under which every payload fails to parse; used to
instantiate theorems at concrete inputs. -/
def jNone : JsonParse := fun _ => none

/-- True on the inbound shapes the malformed-command claim ranges over:
frames that are not valid JSON, parsed objects without a type field, and
parsed objects with an unrecognized type. -/
def malformedB : Inbound → Bool
  | Inbound.notJson => true
  | Inbound.parsed none _ _ => true
  | Inbound.parsed (some t) _ _ =>
      !(t == CMD_MODEL || t == CMD_RESET || t == CMD_CHAT)
  | Inbound.binary => false

/-- One append operation for the append-ordering claim. -/
structure AppendOp where
  role : Role
  content : JStr
  ts : Nat

/-- The row an append operation stores. -/
def opMsg (o : AppendOp) : Msg := { role := o.role, content := o.content, ts := o.ts }

/-- One appendMessage step: the shared insert-then-mirror pattern applied
to the owned state and store. -/
def appendMessage (ag : Agent) (o : AppendOp) : Agent :=
  applyActions ag (appendActs ag.state o.role o.content o.ts)

/-- A sequence of appendMessage steps. -/
def runAppends (ag : Agent) (ops : List AppendOp) : Agent :=
  ops.foldl appendMessage ag

/-- A relay instance as constructed at time c, before any append: the
initial state and an empty table. -/
def freshAgent (c : Nat) : Agent := { state := initialState c, store := [] }

end CfChatAgent

namespace CfChatAgent

/-! Helper lemmas about traces and the streaming accumulator. -/

/-- An invariant preserved by every step of a fold is preserved by the fold. -/
theorem foldl_invariant {α β : Type} (P : α → Prop) (f : α → β → α)
    (hf : ∀ a b, P a → P (f a b)) : ∀ (l : List β) (a : α), P a → P (l.foldl f a)
  | [], _, h => h
  | b :: l, a, h => foldl_invariant P f hf l (f a b) (hf a b h)

/-- The running full text is always the concatenation of the deltas
emitted so far. -/
def FullInv (acc : StreamAcc) : Prop := acc.full = acc.deltas.flatten

theorem processLine_inv (J : JsonParse) (acc : StreamAcc) (line : JStr)
    (h : FullInv acc) : FullInv (processLine J acc line) := by
  unfold processLine
  cases lineIncrement J line with
  | none => exact h
  | some piece => simp [FullInv] at h ⊢; simp [h]

theorem processFrame_inv (J : JsonParse) (acc : StreamAcc) (frame : JStr)
    (h : FullInv acc) : FullInv (processFrame J acc frame) :=
  foldl_invariant FullInv (processLine J) (processLine_inv J) _ acc h

theorem processChunk_inv (J : JsonParse) (acc : StreamAcc) (chunk : JStr)
    (h : FullInv acc) : FullInv (processChunk J acc chunk) := by
  unfold processChunk
  have h0 : FullInv { acc with buffer := [] } := h
  have h1 := foldl_invariant FullInv (processFrame J) (processFrame_inv J)
    (splitFramesGo [] (acc.buffer ++ chunk)).dropLast { acc with buffer := [] } h0
  simpa [FullInv] using h1

theorem runChunks_inv (J : JsonParse) (chunks : List JStr) :
    FullInv (runChunks J chunks) :=
  foldl_invariant FullInv (processChunk J) (processChunk_inv J) chunks _ rfl

theorem runChunks_full (J : JsonParse) (chunks : List JStr) :
    (runChunks J chunks).full = (fragments J chunks).flatten :=
  runChunks_inv J chunks

/-! Pointwise computation lemmas for the trace observers. -/

theorem eventsOf_nil : eventsOf [] = [] := rfl

theorem eventsOf_cons_send (cid : Nat) (e : Event) (tr : List Action) :
    eventsOf (Action.send cid e :: tr) = e :: eventsOf tr := rfl

theorem eventsOf_cons_insert (m : Msg) (tr : List Action) :
    eventsOf (Action.insertRow m :: tr) = eventsOf tr := rfl

theorem eventsOf_cons_setSt (s : AgentState) (tr : List Action) :
    eventsOf (Action.setSt s :: tr) = eventsOf tr := rfl

theorem eventsOf_cons_delete (tr : List Action) :
    eventsOf (Action.deleteRows :: tr) = eventsOf tr := rfl

theorem eventsOf_append (t1 t2 : List Action) :
    eventsOf (t1 ++ t2) = eventsOf t1 ++ eventsOf t2 := by
  simp [eventsOf, List.filterMap_append]

theorem eventsOf_deltaMap (cid : Nat) (ds : List JStr) :
    eventsOf (ds.map fun t => Action.send cid (Event.delta t)) = ds.map Event.delta := by
  induction ds with
  | nil => rfl
  | cons d ds ih => simpa [eventsOf] using ih

theorem eventsOf_appendActs (st : AgentState) (r : Role) (c : JStr) (ts : Nat) :
    eventsOf (appendActs st r c ts) = [] := rfl

theorem assistantContents_nil : assistantContents [] = [] := rfl

theorem assistantContents_cons_send (cid : Nat) (e : Event) (tr : List Action) :
    assistantContents (Action.send cid e :: tr) = assistantContents tr := rfl

theorem assistantContents_append (t1 t2 : List Action) :
    assistantContents (t1 ++ t2) = assistantContents t1 ++ assistantContents t2 := by
  simp [assistantContents, List.filterMap_append]

theorem assistantContents_deltaMap (cid : Nat) (ds : List JStr) :
    assistantContents (ds.map fun t => Action.send cid (Event.delta t)) = [] := by
  induction ds with
  | nil => rfl
  | cons d ds ih => simp [assistantContents]

theorem assistantContents_saveActs (st : AgentState) (c : JStr) (ts : Nat) :
    assistantContents (saveAssistantActs st c ts) = [c] := rfl

theorem assistantContents_userAppend (st : AgentState) (c : JStr) (ts : Nat) :
    assistantContents (appendActs st Role.user c ts) = [] := rfl

end CfChatAgent

namespace CfChatAgent

theorem cmd_chat_ne_model : CMD_CHAT ≠ CMD_MODEL := by decide

theorem cmd_chat_ne_reset : CMD_CHAT ≠ CMD_RESET := by decide

theorem cmd_reset_ne_model : CMD_RESET ≠ CMD_MODEL := by decide

theorem count_done_deltaMap (ds : List JStr) :
    ((ds.map Event.delta).count Event.done) = 0 := by
  induction ds with
  | nil => rfl
  | cons d ds ih => simp [List.count_cons, ih]

theorem eventsOf_saveActs (st : AgentState) (c : JStr) (ts : Nat) :
    eventsOf (saveAssistantActs st c ts) = [] := rfl

/-- C10: when the backend run result is neither a readable stream nor a
string, the relay emits no delta events (the single done is the only event
of the generation) and persists an assistant message whose content is the
literal no-response text. -/
theorem c10_no_response (J : JsonParse) (cid : Nat) (st : AgentState) (ts : Nat) :
    eventsOf (streamAssistant J cid st RunOut.other ts) = [Event.done] ∧
    assistantContents (streamAssistant J cid st RunOut.other ts) = [NO_RESPONSE] :=
  ⟨rfl, rfl⟩

/-- C3: for every backend stream decoding to fragments F1..Fn that
completes without error, the client observes exactly the delta events
F1..Fn in that order followed by done, and the concatenation of the
fragments is the content of the assistant message persisted for the
generation. -/
theorem c3_delta_order_and_concat (J : JsonParse) (cid : Nat) (st : AgentState)
    (ts : Nat) (chunks : List JStr) :
    eventsOf (streamAssistant J cid st (RunOut.stream chunks false) ts)
      = (fragments J chunks).map Event.delta ++ [Event.done] ∧
    assistantContents (streamAssistant J cid st (RunOut.stream chunks false) ts)
      = [(fragments J chunks).flatten] := by
  have hfull := runChunks_full J chunks
  constructor
  · simp [streamAssistant, fragments, eventsOf_append, eventsOf_deltaMap,
      eventsOf_cons_send, eventsOf_appendActs, saveAssistantActs]
  · simp [streamAssistant, fragments, assistantContents_append, assistantContents_deltaMap,
      assistantContents_cons_send, assistantContents_saveActs, hfull]

/-- C6: a backend invocation that throws before any fragment was
accumulated persists the placeholder stream-error marker text; a stream
read failure after partial accumulation persists exactly the accumulated
text (the placeholder only when nothing was accumulated); in both cases
the events are the already-sent deltas followed by one normal done and
nothing else. -/
theorem c6_error_recovery (J : JsonParse) (cid : Nat) (st : AgentState) (ts : Nat)
    (chunks : List JStr) :
    (assistantContents (streamAssistant J cid st RunOut.raiseAtInvoke ts) = [STREAM_ERROR] ∧
     eventsOf (streamAssistant J cid st RunOut.raiseAtInvoke ts) = [Event.done]) ∧
    (assistantContents (streamAssistant J cid st (RunOut.stream chunks true) ts)
        = [if (fragments J chunks).flatten = [] then STREAM_ERROR
           else (fragments J chunks).flatten] ∧
     eventsOf (streamAssistant J cid st (RunOut.stream chunks true) ts)
        = (fragments J chunks).map Event.delta ++ [Event.done]) := by
  have hfull := runChunks_full J chunks
  refine ⟨⟨rfl, rfl⟩, ?_, ?_⟩
  · simp [streamAssistant, fragments, assistantContents_append, assistantContents_deltaMap,
      assistantContents_cons_send, assistantContents_saveActs, hfull]
  · simp [streamAssistant, fragments, eventsOf_append, eventsOf_deltaMap,
      eventsOf_cons_send, eventsOf_appendActs, saveAssistantActs]

/-- C4: a chat command with non-empty trimmed text leads to exactly one
done event, whatever the backend invocation does (stream with or without a
read error, plain text, unrecognized result, or a throw at invocation). -/
theorem c4_exactly_one_done (J : JsonParse) (cid : Nat) (st : AgentState)
    (text : JStr) (now saveTs : Nat) (out : RunOut) (h : jsTrim text ≠ []) :
    (eventsOf (onMessage J cid st (Inbound.parsed (some CMD_CHAT) (some text) none)
        now saveTs out)).count Event.done = 1 := by
  have hdispatch : onMessage J cid st (Inbound.parsed (some CMD_CHAT) (some text) none)
      now saveTs out = chatActs J cid st text now saveTs out := by
    simp [onMessage, cmd_chat_ne_model, cmd_chat_ne_reset]
  rw [hdispatch]
  cases out with
  | stream chunks err =>
      simp [chatActs, h, streamAssistant, eventsOf_append, eventsOf_deltaMap,
        eventsOf_cons_send, eventsOf_appendActs, eventsOf_saveActs,
        List.count_append, count_done_deltaMap, List.count_cons]
  | text s =>
      simp [chatActs, h, streamAssistant, eventsOf_append, eventsOf_cons_send,
        eventsOf_appendActs, eventsOf_saveActs, eventsOf_nil,
        List.count_append, List.count_cons]
  | other =>
      simp [chatActs, h, streamAssistant, eventsOf_append, eventsOf_cons_send,
        eventsOf_appendActs, eventsOf_saveActs, eventsOf_nil,
        List.count_append, List.count_cons]
  | raiseAtInvoke =>
      simp [chatActs, h, streamAssistant, eventsOf_append, eventsOf_cons_send,
        eventsOf_appendActs, eventsOf_saveActs, eventsOf_nil,
        List.count_append, List.count_cons]

/-- Witness for c4_exactly_one_done at a concrete chat command. -/
theorem c4_exactly_one_done_witness :
    jsTrim "hi".data ≠ [] ∧
    (eventsOf (onMessage jNone 0 (initialState 0)
        (Inbound.parsed (some CMD_CHAT) (some "hi".data) none) 1 2 RunOut.other)).count
      Event.done = 1 :=
  ⟨by decide, c4_exactly_one_done jNone 0 (initialState 0) "hi".data 1 2 RunOut.other (by decide)⟩

end CfChatAgent

namespace CfChatAgent

theorem pADGo_deltaMap (cid : Nat) (ds : List JStr) (seen : Bool) (rest : List Action) :
    persistAfterDoneGo seen ((ds.map fun t => Action.send cid (Event.delta t)) ++ rest)
      = persistAfterDoneGo seen rest := by
  induction ds with
  | nil => rfl
  | cons d ds ih => simpa [persistAfterDoneGo] using ih

/-- C1 as stated is refuted by the non-streaming path: a chat command whose
backend invocation resolves to a plain string persists the assistant row
inside the try block, before the early return triggers the finally clause
that sends done, so the assistant insert precedes the done send. -/
theorem c1_counterexample :
    persistAfterDone (onMessage jNone 0 (initialState 0)
      (Inbound.parsed (some CMD_CHAT) (some "hi".data) none) 1 2
      (RunOut.text "yo".data)) = false := by decide

/-- C1 corrected: for a chat command with non-empty trimmed text, the
assistant row is persisted only after the done send when the backend
returns a stream (with or without a read error) or throws at invocation;
but when the backend result is a plain string or an unrecognized value,
the assistant row is persisted before the done send. -/
theorem c1_persist_order_amended (J : JsonParse) (cid : Nat) (st : AgentState)
    (text : JStr) (now saveTs : Nat) (chunks : List JStr) (err : Bool) (s : JStr)
    (h : jsTrim text ≠ []) :
    persistAfterDone (onMessage J cid st (Inbound.parsed (some CMD_CHAT) (some text) none)
        now saveTs (RunOut.stream chunks err)) = true ∧
    persistAfterDone (onMessage J cid st (Inbound.parsed (some CMD_CHAT) (some text) none)
        now saveTs RunOut.raiseAtInvoke) = true ∧
    persistBeforeDone (onMessage J cid st (Inbound.parsed (some CMD_CHAT) (some text) none)
        now saveTs (RunOut.text s)) = true ∧
    persistBeforeDone (onMessage J cid st (Inbound.parsed (some CMD_CHAT) (some text) none)
        now saveTs RunOut.other) = true := by
  have hd : ∀ o : RunOut, onMessage J cid st (Inbound.parsed (some CMD_CHAT) (some text) none)
      now saveTs o = chatActs J cid st text now saveTs o := by
    intro o; simp [onMessage, cmd_chat_ne_model, cmd_chat_ne_reset]
  refine ⟨?_, ?_, ?_, ?_⟩ <;> rw [hd] <;>
    simp [chatActs, h, appendActs, streamAssistant, saveAssistantActs,
      persistAfterDone, persistBeforeDone, persistAfterDoneGo, persistBeforeDoneGo,
      pADGo_deltaMap]

/-- Witness for c1_persist_order_amended at a concrete chat command. -/
theorem c1_persist_order_amended_witness :
    jsTrim "hi".data ≠ [] ∧
    (persistAfterDone (onMessage jNone 0 (initialState 0)
        (Inbound.parsed (some CMD_CHAT) (some "hi".data) none) 1 2
        (RunOut.stream ["data: x\n\n".data] false)) = true ∧
     persistAfterDone (onMessage jNone 0 (initialState 0)
        (Inbound.parsed (some CMD_CHAT) (some "hi".data) none) 1 2
        RunOut.raiseAtInvoke) = true ∧
     persistBeforeDone (onMessage jNone 0 (initialState 0)
        (Inbound.parsed (some CMD_CHAT) (some "hi".data) none) 1 2
        (RunOut.text "yo".data)) = true ∧
     persistBeforeDone (onMessage jNone 0 (initialState 0)
        (Inbound.parsed (some CMD_CHAT) (some "hi".data) none) 1 2
        RunOut.other) = true) :=
  ⟨by decide, c1_persist_order_amended jNone 0 (initialState 0) "hi".data 1 2
    ["data: x\n\n".data] false "yo".data (by decide)⟩

/-- C2 as stated is refuted on an empty session: after the chat command
with text hello the turn list is the system instruction followed by the
user turn twice, because the state already holds the just-appended user
row when the last forty are sliced, and the user turn is then appended
once more; the just-appended user message occurs twice, not once. -/
theorem c2_counterexample :
    List.count (AiChatMessage.mk AiRole.user "hello".data)
      ((chatPayload (initialState 0) "hello".data 1).getD []) = 2 := by decide

/-- C2 corrected: for every chat command with non-empty trimmed text, the
turn list is one fixed system instruction, then the last forty log rows
restricted to user and assistant roles, then the just-appended user turn
again; the filtered history already ends with the just-appended user turn,
so that turn occurs at least twice in the list. -/
theorem c2_payload_amended (st : AgentState) (text : JStr) (now : Nat)
    (h : jsTrim text ≠ []) :
    ∃ hist : List AiChatMessage,
      chatPayload st text now
        = some ((AiChatMessage.mk AiRole.system systemPrompt)
            :: hist ++ [AiChatMessage.mk AiRole.user (jsTrim text)]) ∧
      hist.getLast? = some (AiChatMessage.mk AiRole.user (jsTrim text)) ∧
      2 ≤ List.count (AiChatMessage.mk AiRole.user (jsTrim text))
          ((AiChatMessage.mk AiRole.system systemPrompt)
            :: hist ++ [AiChatMessage.mk AiRole.user (jsTrim text)]) := by
  have hk : (st.messages ++ [(⟨Role.user, jsTrim text, now⟩ : Msg)]).length - 40
      ≤ st.messages.length := by
    simp
  have hslice : sliceLast 40 (st.messages ++ [(⟨Role.user, jsTrim text, now⟩ : Msg)])
      = st.messages.drop ((st.messages ++ [(⟨Role.user, jsTrim text, now⟩ : Msg)]).length - 40)
        ++ [(⟨Role.user, jsTrim text, now⟩ : Msg)] := by
    unfold sliceLast
    exact List.drop_append_of_le_length hk
  refine ⟨(st.messages.drop
      ((st.messages ++ [(⟨Role.user, jsTrim text, now⟩ : Msg)]).length - 40)).filterMap toAiMsg
      ++ [AiChatMessage.mk AiRole.user (jsTrim text)], ?_, ?_, ?_⟩
  · simp [chatPayload, h, mkPayload, hslice, List.filterMap_append, toAiMsg]
  · simp
  · simp [List.count_append, List.count_cons]

end CfChatAgent

namespace CfChatAgent

/-- True when every send in the trace targets the given connection. -/
def sendsOnlyToB (cid : Nat) (tr : List Action) : Bool :=
  tr.all fun a =>
    match a with
    | Action.send c _ => c == cid
    | _ => true

theorem sendsOnlyToB_streamAssistant (J : JsonParse) (cid : Nat) (st : AgentState)
    (out : RunOut) (ts : Nat) :
    sendsOnlyToB cid (streamAssistant J cid st out ts) = true := by
  cases out with
  | stream chunks err => simp [sendsOnlyToB, streamAssistant, saveAssistantActs, appendActs]
  | text s => simp [sendsOnlyToB, streamAssistant, saveAssistantActs, appendActs]
  | other => simp [sendsOnlyToB, streamAssistant, saveAssistantActs, appendActs]
  | raiseAtInvoke => simp [sendsOnlyToB, streamAssistant, saveAssistantActs, appendActs]

theorem sendsOnlyToB_chatActs (J : JsonParse) (cid : Nat) (st : AgentState)
    (text : JStr) (now saveTs : Nat) (out : RunOut) :
    sendsOnlyToB cid (chatActs J cid st text now saveTs out) = true := by
  by_cases h : jsTrim text = []
  · simp [chatActs, h, sendsOnlyToB]
  · cases out <;>
      simp [chatActs, h, sendsOnlyToB, appendActs, streamAssistant, saveAssistantActs]

theorem sendsOnlyToB_onMessage (J : JsonParse) (cid : Nat) (st : AgentState)
    (inb : Inbound) (now saveTs : Nat) (out : RunOut) :
    sendsOnlyToB cid (onMessage J cid st inb now saveTs out) = true := by
  cases inb with
  | binary => rfl
  | notJson => rfl
  | parsed ty text? model? =>
    cases ty with
    | none => rfl
    | some t =>
      by_cases h1 : t = CMD_MODEL
      · cases model? with
        | none => simp [onMessage, h1, sendsOnlyToB]
        | some m =>
          by_cases h2 : m = []
          · simp [onMessage, h1, h2, sendsOnlyToB]
          · simp [onMessage, h1, h2, sendsOnlyToB]
      · by_cases h2 : t = CMD_RESET
        · simp [onMessage, h1, h2, cmd_reset_ne_model, resetActs, sendsOnlyToB]
        · by_cases h3 : t = CMD_CHAT
          · have hc := sendsOnlyToB_chatActs J cid st (text?.getD []) now saveTs out
            simp [onMessage, h1, h2, h3, cmd_chat_ne_model, cmd_chat_ne_reset]
            exact hc
          · simp [onMessage, h1, h2, h3, sendsOnlyToB]

theorem eventsTo_of_ne (cid cid' : Nat) (tr : List Action)
    (hs : sendsOnlyToB cid tr = true) (hne : cid' ≠ cid) : eventsTo cid' tr = [] := by
  induction tr with
  | nil => rfl
  | cons a tr ih =>
    cases a with
    | send c e =>
      simp [sendsOnlyToB] at hs
      obtain ⟨hc, hrest⟩ := hs
      have hcne : ¬(c = cid') := by
        rw [hc]; exact fun hh => hne hh.symm
      have := ih (by simpa [sendsOnlyToB] using hrest)
      simpa [eventsTo, hcne] using this
    | insertRow m =>
      have hs' : sendsOnlyToB cid tr = true := by simpa [sendsOnlyToB] using hs
      simpa [eventsTo] using ih hs'
    | setSt s =>
      have hs' : sendsOnlyToB cid tr = true := by simpa [sendsOnlyToB] using hs
      simpa [eventsTo] using ih hs'
    | deleteRows =>
      have hs' : sendsOnlyToB cid tr = true := by simpa [sendsOnlyToB] using hs
      simpa [eventsTo] using ih hs'

theorem eventsTo_self (cid : Nat) (tr : List Action)
    (hs : sendsOnlyToB cid tr = true) : eventsTo cid tr = eventsOf tr := by
  induction tr with
  | nil => rfl
  | cons a tr ih =>
    cases a with
    | send c e =>
      simp [sendsOnlyToB] at hs
      obtain ⟨hc, hrest⟩ := hs
      have := ih (by simpa [sendsOnlyToB] using hrest)
      simpa [eventsTo, eventsOf, hc] using this
    | insertRow m =>
      have hs' : sendsOnlyToB cid tr = true := by simpa [sendsOnlyToB] using hs
      simpa [eventsTo, eventsOf] using ih hs'
    | setSt s =>
      have hs' : sendsOnlyToB cid tr = true := by simpa [sendsOnlyToB] using hs
      simpa [eventsTo, eventsOf] using ih hs'
    | deleteRows =>
      have hs' : sendsOnlyToB cid tr = true := by simpa [sendsOnlyToB] using hs
      simpa [eventsTo, eventsOf] using ih hs'

/-- C5 as stated is refuted with two connections 0 and 1 attached to the
session: a reset command arriving on connection 0 produces a cleared
event, and connection 1 receives no event at all. -/
theorem c5_counterexample :
    eventsOf (onMessage jNone 0 (initialState 0)
        (Inbound.parsed (some CMD_RESET) none none) 5 6 RunOut.other)
      = [Event.cleared] ∧
    eventsTo 1 (onMessage jNone 0 (initialState 0)
        (Inbound.parsed (some CMD_RESET) none none) 5 6 RunOut.other)
      = [] := by decide

/-- C5 corrected: every outward event produced while handling a command is
sent only to the connection that issued the command; any other connection
attached to the session receives none of them. -/
theorem c5_only_sender_amended (J : JsonParse) (cid cid' : Nat) (st : AgentState)
    (inb : Inbound) (now saveTs : Nat) (out : RunOut) (h : cid' ≠ cid) :
    eventsTo cid' (onMessage J cid st inb now saveTs out) = [] ∧
    eventsTo cid (onMessage J cid st inb now saveTs out)
      = eventsOf (onMessage J cid st inb now saveTs out) :=
  ⟨eventsTo_of_ne cid cid' _ (sendsOnlyToB_onMessage J cid st inb now saveTs out) h,
   eventsTo_self cid _ (sendsOnlyToB_onMessage J cid st inb now saveTs out)⟩

/-- Witness for c5_only_sender_amended at a concrete reset command. -/
theorem c5_only_sender_amended_witness :
    (1 : Nat) ≠ 0 ∧
    (eventsTo 1 (onMessage jNone 0 (initialState 0)
        (Inbound.parsed (some CMD_RESET) none none) 5 6 RunOut.other) = [] ∧
     eventsTo 0 (onMessage jNone 0 (initialState 0)
        (Inbound.parsed (some CMD_RESET) none none) 5 6 RunOut.other)
       = eventsOf (onMessage jNone 0 (initialState 0)
          (Inbound.parsed (some CMD_RESET) none none) 5 6 RunOut.other)) :=
  ⟨by decide, c5_only_sender_amended jNone 0 1 (initialState 0)
    (Inbound.parsed (some CMD_RESET) none none) 5 6 RunOut.other (by decide)⟩

end CfChatAgent

namespace CfChatAgent

/-- C7: an inbound message that is not valid JSON, lacks a type field, or
carries an unrecognized type produces an empty trace: the state and the
store are unchanged and no event is emitted. -/
theorem c7_malformed_ignored (J : JsonParse) (cid : Nat) (st : AgentState)
    (store : List Msg) (inb : Inbound) (now saveTs : Nat) (out : RunOut)
    (h : malformedB inb = true) :
    onMessage J cid st inb now saveTs out = [] ∧
    applyActions (Agent.mk st store) (onMessage J cid st inb now saveTs out)
      = Agent.mk st store ∧
    eventsOf (onMessage J cid st inb now saveTs out) = [] := by
  have htr : onMessage J cid st inb now saveTs out = [] := by
    cases inb with
    | binary => rfl
    | notJson => rfl
    | parsed ty text? model? =>
      cases ty with
      | none => rfl
      | some t =>
        simp [malformedB] at h
        obtain ⟨⟨h1, h2⟩, h3⟩ := h
        simp [onMessage, h1, h2, h3]
  rw [htr]
  exact ⟨rfl, rfl, rfl⟩

/-- Witness for c7_malformed_ignored at a concrete unrecognized command. -/
theorem c7_malformed_ignored_witness :
    malformedB (Inbound.parsed (some "unknown".data) none none) = true ∧
    (onMessage jNone 0 (initialState 0)
        (Inbound.parsed (some "unknown".data) none none) 3 4 RunOut.other = [] ∧
     applyActions (Agent.mk (initialState 0) [])
        (onMessage jNone 0 (initialState 0)
          (Inbound.parsed (some "unknown".data) none none) 3 4 RunOut.other)
       = Agent.mk (initialState 0) [] ∧
     eventsOf (onMessage jNone 0 (initialState 0)
        (Inbound.parsed (some "unknown".data) none none) 3 4 RunOut.other) = []) :=
  ⟨by decide, c7_malformed_ignored jNone 0 (initialState 0) []
    (Inbound.parsed (some "unknown".data) none none) 3 4 RunOut.other (by decide)⟩

/-- C8: handling a reset command deletes every stored row, replaces the
state by an empty log with the same model, a new createdAt and a refreshed
expiresAt, and emits one cleared event; a second reset on the resulting
empty log succeeds with the same outcome. -/
theorem c8_reset (J : JsonParse) (cid : Nat) (st : AgentState) (store : List Msg)
    (now saveTs now' saveTs' : Nat) (out out' : RunOut) :
    eventsOf (onMessage J cid st (Inbound.parsed (some CMD_RESET) none none)
        now saveTs out) = [Event.cleared] ∧
    applyActions (Agent.mk st store)
        (onMessage J cid st (Inbound.parsed (some CMD_RESET) none none) now saveTs out)
      = Agent.mk (AgentState.mk st.model [] now (now + DAY)) [] ∧
    eventsOf (onMessage J cid (AgentState.mk st.model [] now (now + DAY))
        (Inbound.parsed (some CMD_RESET) none none) now' saveTs' out') = [Event.cleared] ∧
    applyActions (Agent.mk (AgentState.mk st.model [] now (now + DAY)) [])
        (onMessage J cid (AgentState.mk st.model [] now (now + DAY))
          (Inbound.parsed (some CMD_RESET) none none) now' saveTs' out')
      = Agent.mk (AgentState.mk st.model [] now' (now' + DAY)) [] := by
  have hr : ∀ (s : AgentState) (n sv : Nat) (o : RunOut),
      onMessage J cid s (Inbound.parsed (some CMD_RESET) none none) n sv o
        = resetActs cid s n := by
    intro s n sv o
    simp [onMessage, cmd_reset_ne_model]
  simp only [hr]
  refine ⟨rfl, ?_, rfl, ?_⟩ <;>
    simp [resetActs, applyActions, applyAction]

end CfChatAgent

namespace CfChatAgent

theorem appendMessage_store (ag : Agent) (o : AppendOp) :
    (appendMessage ag o).store = ag.store ++ [opMsg o] := rfl

theorem appendMessage_messages (ag : Agent) (o : AppendOp) :
    (appendMessage ag o).state.messages = ag.state.messages ++ [opMsg o] := rfl

theorem runAppends_decomp (ops : List AppendOp) : ∀ ag : Agent,
    (runAppends ag ops).store = ag.store ++ ops.map opMsg ∧
    (runAppends ag ops).state.messages = ag.state.messages ++ ops.map opMsg := by
  induction ops with
  | nil => intro ag; simp [runAppends]
  | cons o ops ih =>
    intro ag
    obtain ⟨hs, hm⟩ := ih (appendMessage ag o)
    constructor
    · calc (runAppends ag (o :: ops)).store
          = (runAppends (appendMessage ag o) ops).store := rfl
        _ = (appendMessage ag o).store ++ ops.map opMsg := hs
        _ = ag.store ++ (o :: ops).map opMsg := by
              rw [appendMessage_store]; simp
    · calc (runAppends ag (o :: ops)).state.messages
          = (runAppends (appendMessage ag o) ops).state.messages := rfl
        _ = (appendMessage ag o).state.messages ++ ops.map opMsg := hm
        _ = ag.state.messages ++ (o :: ops).map opMsg := by
              rw [appendMessage_messages]; simp

/-- C9: for every sequence of appendMessage steps whose timestamps are
non-decreasing (the clock never runs backwards), and at every prefix of the
sequence, the in-memory message log equals the rows returned by the
timestamp-ascending select, and both equal the insertion-ordered store;
this holds in particular when consecutive appends carry equal timestamps,
because the select is a stable sort of the insertion order. -/
theorem c9_append_order (c : Nat) (ops : List AppendOp)
    (hmono : List.Chain' (fun a b : Nat => a ≤ b) (ops.map AppendOp.ts)) (n : Nat) :
    (runAppends (freshAgent c) (ops.take n)).state.messages
      = selectAllOrderedByTime ((runAppends (freshAgent c) (ops.take n)).store) ∧
    (runAppends (freshAgent c) (ops.take n)).state.messages
      = (runAppends (freshAgent c) (ops.take n)).store := by
  obtain ⟨hs, hm⟩ := runAppends_decomp (ops.take n) (freshAgent c)
  have hs0 : (runAppends (freshAgent c) (ops.take n)).store = (ops.take n).map opMsg := by
    simpa [freshAgent, initialState] using hs
  have hm0 : (runAppends (freshAgent c) (ops.take n)).state.messages
      = (ops.take n).map opMsg := by
    simpa [freshAgent, initialState] using hm
  have hchainOps : List.Chain' (fun a b : AppendOp => a.ts ≤ b.ts) ops :=
    (List.chain'_map AppendOp.ts).mp hmono
  have hchainTake : List.Chain' (fun a b : AppendOp => a.ts ≤ b.ts) (ops.take n) :=
    hchainOps.prefix (List.take_prefix n ops)
  have hchainMsg : List.Chain' byTs ((ops.take n).map opMsg) := by
    rw [List.chain'_map]
    exact hchainTake
  have hsorted : List.Sorted byTs ((ops.take n).map opMsg) :=
    List.chain'_iff_pairwise.mp hchainMsg
  refine ⟨?_, by rw [hs0, hm0]⟩
  rw [hs0, hm0, selectAllOrderedByTime, List.Sorted.insertionSort_eq hsorted]

/-- Three appends sharing one timestamp, for the c9 witness. -/
def c9ops : List AppendOp :=
  [⟨Role.user, "a".data, 5⟩, ⟨Role.assistant, "b".data, 5⟩, ⟨Role.user, "c".data, 5⟩]

/-- Witness for c9_append_order at a concrete sequence with equal
timestamps. -/
theorem c9_append_order_witness :
    List.Chain' (fun a b : Nat => a ≤ b) (c9ops.map AppendOp.ts) ∧
    ((runAppends (freshAgent 0) (c9ops.take 3)).state.messages
        = selectAllOrderedByTime ((runAppends (freshAgent 0) (c9ops.take 3)).store) ∧
     (runAppends (freshAgent 0) (c9ops.take 3)).state.messages
        = (runAppends (freshAgent 0) (c9ops.take 3)).store) :=
  ⟨by simp [c9ops, List.chain'_cons], c9_append_order 0 c9ops (by simp [c9ops, List.chain'_cons]) 3⟩

end CfChatAgent

namespace CfChatAgent

/-- Witness for c2_payload_amended at a concrete chat command. -/
theorem c2_payload_amended_witness :
    jsTrim "hello".data ≠ [] ∧
    (∃ hist : List AiChatMessage,
      chatPayload (initialState 0) "hello".data 1
        = some ((AiChatMessage.mk AiRole.system systemPrompt)
            :: hist ++ [AiChatMessage.mk AiRole.user (jsTrim "hello".data)]) ∧
      hist.getLast? = some (AiChatMessage.mk AiRole.user (jsTrim "hello".data)) ∧
      2 ≤ List.count (AiChatMessage.mk AiRole.user (jsTrim "hello".data))
          ((AiChatMessage.mk AiRole.system systemPrompt)
            :: hist ++ [AiChatMessage.mk AiRole.user (jsTrim "hello".data)])) :=
  ⟨by decide, c2_payload_amended (initialState 0) "hello".data 1 (by decide)⟩

end CfChatAgent
